import Mathlib

/-!
Verification of the zagreus terminal-server (server.py, client.py, expect.py).

Modelling conventions:
* Python `bytes` values are `List Nat` with entries < 256.
* Python `str` values are `List Nat` of Unicode code points; a well-formed
  string (no lone surrogates) satisfies `validStr`.
* `text.encode('utf-8', 'replace')` is `pyEncode` (surrogates become `'?'`).
* `data.decode('utf-8', 'replace')` is `utf8Decode`; the replacement policy
  emits U+FFFD and skips one byte on malformed input.
* Wall-clock time (`time.time()`) is an integer parameter `now`; each call
  into the code is given the time at which it runs.
-/

namespace Zagreus

/-- A Unicode scalar value: a code point that is not a surrogate.  These are
exactly the code points the UTF-8 round trip preserves. -/
def isScalar (c : Nat) : Bool :=
  decide (c < 0x110000 ∧ (c < 0xD800 ∨ 0xDFFF < c))

/-- A Python `str` whose code points are all Unicode scalar values. -/
def validStr (x : List Nat) : Prop := ∀ c ∈ x, isScalar c = true

instance (x : List Nat) : Decidable (validStr x) := by
  unfold validStr; infer_instance

/-- UTF-8 encoding of a single scalar value, written arithmetically. -/
def utf8EncodeChar (c : Nat) : List Nat :=
  if c < 0x80 then [c]
  else if c < 0x800 then [0xC0 + c / 0x40, 0x80 + c % 0x40]
  else if c < 0x10000 then
    [0xE0 + c / 0x1000, 0x80 + c / 0x40 % 0x40, 0x80 + c % 0x40]
  else
    [0xF0 + c / 0x40000, 0x80 + c / 0x1000 % 0x40, 0x80 + c / 0x40 % 0x40,
      0x80 + c % 0x40]

/-- One code point under `str.encode('utf-8', 'replace')`: scalar values are
UTF-8 encoded, anything else (a lone surrogate) becomes `'?'` (0x3F). -/
def pyEncodeChar (c : Nat) : List Nat :=
  if isScalar c then utf8EncodeChar c else [63]

/-- `text.encode('utf-8', 'replace')` on a whole string. -/
def pyEncode (text : List Nat) : List Nat :=
  (text.map pyEncodeChar).flatten

/-- `bytes.replace(ESCAPE, ESCAPE + ESCAPE)`: double every 0xFF byte. -/
def escapeAll (l : List Nat) : List Nat :=
  (l.map fun b => if b = 255 then [255, 255] else [b]).flatten

/-- server.py `encode`: UTF-8 encode the text, then double every 0xFF. -/
def encode (text : List Nat) : List Nat :=
  escapeAll (pyEncode text)

/-- server.py `command`: an escape byte followed by the command byte. -/
def command (c : Nat) : List Nat := [255, c]

/-- A UTF-8 continuation byte (10xxxxxx). -/
def isCont (b : Nat) : Bool := decide (0x80 ≤ b ∧ b < 0xC0)

/-- Parse one code point at the head of a byte stream: returns the decoded
code point and how many bytes beyond the first were consumed.  Malformed
input yields U+FFFD consuming just the first byte. -/
def utf8Head (b0 : Nat) (rest : List Nat) : Nat × Nat :=
  if b0 < 0x80 then (b0, 0)
  else if 0xC2 ≤ b0 ∧ b0 < 0xE0 then
    match rest with
    | b1 :: _ =>
        if isCont b1 then ((b0 - 0xC0) * 0x40 + (b1 - 0x80), 1) else (0xFFFD, 0)
    | _ => (0xFFFD, 0)
  else if 0xE0 ≤ b0 ∧ b0 < 0xF0 then
    match rest with
    | b1 :: b2 :: _ =>
        let v := (b0 - 0xE0) * 0x1000 + (b1 - 0x80) * 0x40 + (b2 - 0x80)
        if isCont b1 ∧ isCont b2 ∧ 0x800 ≤ v ∧ (v < 0xD800 ∨ 0xDFFF < v) then
          (v, 2)
        else (0xFFFD, 0)
    | _ => (0xFFFD, 0)
  else if 0xF0 ≤ b0 ∧ b0 < 0xF5 then
    match rest with
    | b1 :: b2 :: b3 :: _ =>
        let v := (b0 - 0xF0) * 0x40000 + (b1 - 0x80) * 0x1000 +
          (b2 - 0x80) * 0x40 + (b3 - 0x80)
        if isCont b1 ∧ isCont b2 ∧ isCont b3 ∧ 0x10000 ≤ v ∧ v < 0x110000 then
          (v, 3)
        else (0xFFFD, 0)
    | _ => (0xFFFD, 0)
  else (0xFFFD, 0)

/-- Fuel-based decoding loop (structural, so that the kernel can
evaluate it); one unit of fuel per decoded code point suffices since
every step consumes at least one byte. -/
def utf8DecodeAux : Nat → List Nat → List Nat
  | _, [] => []
  | 0, _ :: _ => []
  | fuel + 1, b0 :: rest =>
      (utf8Head b0 rest).1 :: utf8DecodeAux fuel (rest.drop (utf8Head b0 rest).2)

/-- `bytes.decode('utf-8', 'replace')`: decode code points one after the
other, substituting U+FFFD for malformed sequences. -/
def utf8Decode (l : List Nat) : List Nat := utf8DecodeAux l.length l

theorem utf8DecodeAux_fuel :
    ∀ f1 : Nat, ∀ f2 : Nat, ∀ l : List Nat, l.length ≤ f1 → l.length ≤ f2 →
      utf8DecodeAux f1 l = utf8DecodeAux f2 l := by
  intro f1
  induction f1 with
  | zero =>
      intro f2 l h1 _
      have : l = [] := List.eq_nil_of_length_eq_zero (by omega)
      subst this
      cases f2 <;> rfl
  | succ a ih =>
      intro f2 l h1 h2
      cases l with
      | nil => cases f2 <;> rfl
      | cons b0 rest =>
          cases f2 with
          | zero => simp at h2
          | succ b =>
              show (utf8Head b0 rest).1 :: utf8DecodeAux a _ =
                (utf8Head b0 rest).1 :: utf8DecodeAux b _
              have hd : (rest.drop (utf8Head b0 rest).2).length ≤ rest.length := by
                simp [List.length_drop]
              simp only [List.length_cons] at h1 h2
              rw [ih b _ (by omega) (by omega)]

/-- The split performed by `ESCAPE_RE.split(data)` for the pattern
`(\xff.)` with DOTALL: scan left to right for non-overlapping two-byte
matches `0xFF, b`; the result alternates unmatched runs and matches and
always starts and ends with an (possibly empty) unmatched run.  `acc`
holds the current unmatched run, reversed. -/
def escSplitAux (acc : List Nat) : List Nat → List (List Nat)
  | [] => [acc.reverse]
  | b :: rest =>
      if b = 255 then
        match rest with
        | b2 :: rest2 => acc.reverse :: [255, b2] :: escSplitAux [] rest2
        | [] => [(255 :: acc).reverse]
      else escSplitAux (b :: acc) rest

/-- One yielded element of server.py `decode`: a command (`True`, payload is
the raw byte after the escape) or data (`False`, payload is the chunk run
through `bytes.decode('utf-8', 'replace')`). -/
inductive Segment where
  | cmd (payload : List Nat)
  | data (text : List Nat)
deriving DecidableEq, Repr

/-- server.py `decode`: split on the escape pattern; chunks starting with
the escape byte are commands (escape stripped), the rest are data decoded
as lossy UTF-8. -/
def decode (d : List Nat) : List Segment :=
  (escSplitAux [] d).map fun chunk =>
    if chunk.head? = some 255 then Segment.cmd (chunk.drop 1)
    else Segment.data (utf8Decode chunk)

/-! ### Server (`Z80Server`)

The server state tracks the fields of `Z80Server` that the claims are
about, together with two observation logs: the bytes the server has sent
to each client socket (`sent`) and the text written to the device
(`deviceWrites`), plus a count of reset pulses (`resets`). -/

/-- `Z80Server.backbuffer_max` (1024 * 8). -/
def backbufferMax : Nat := 1024 * 8

structure ServerState where
  connections : List Nat
  sent : Nat → List Nat
  backbuffer : List Nat
  deviceWrites : List Nat
  resets : Nat

/-- `Z80Server.__init__`: no connections, empty backbuffer; the
constructor pulses the device reset once. -/
def initState : ServerState :=
  { connections := [], sent := fun _ => [], backbuffer := [],
    deviceWrites := [], resets := 1 }

/-- `Z80Server.send_to_all`: append the data to the backbuffer, trim the
backbuffer to its last `backbuffer_max` characters when it exceeds that
bound, then send the wire-encoded data to every connection. -/
def sendToAll (st : ServerState) (d : List Nat) : ServerState :=
  let bb1 := st.backbuffer ++ d
  let bb2 :=
    if bb1.length > backbufferMax then bb1.drop (bb1.length - backbufferMax)
    else bb1
  { st with
      backbuffer := bb2
      sent := fun c =>
        if c ∈ st.connections then st.sent c ++ encode d else st.sent c }

/-- `Z80Server.handle_command`: on `b'r'` pulse the reset line and
broadcast a newline; any other command byte is ignored. -/
def handleCommand (st : ServerState) (c : List Nat) : ServerState :=
  if c = [114] then sendToAll { st with resets := st.resets + 1 } [10]
  else st

/-- `chunk.replace('\n', '\r\n')` on a decoded text chunk. -/
def lfToCrlf (l : List Nat) : List Nat :=
  (l.map fun c => if c = 10 then [13, 10] else [c]).flatten

/-- Handling of one decoded segment of client input in
`Z80Server.serve_once`: commands are dispatched, data is written to the
device with LF translated to CR LF. -/
def handleSegment (st : ServerState) (seg : Segment) : ServerState :=
  match seg with
  | .cmd c => handleCommand st c
  | .data txt => { st with deviceWrites := st.deviceWrites ++ lfToCrlf txt }

/-- The atomic units of work of `Z80Server.serve_once`: accepting a new
client, reading device output, or reading a buffer from a client.  A run
of the server is an arbitrary interleaving of these. -/
inductive Event where
  | accept (cid : Nat)
  | deviceRead (d : List Nat)
  | clientData (cid : Nat) (bytes : List Nat)

/-- One readiness event of `Z80Server.serve_once`.  Accepting appends the
connection to the registry and then sends it the wire-encoded backbuffer;
device data goes through `send_to_all`; client data is decoded and each
segment dispatched in order. -/
def step (st : ServerState) : Event → ServerState
  | .accept cid =>
      { st with
          connections := st.connections ++ [cid]
          sent := fun c =>
            if c = cid then st.sent c ++ encode st.backbuffer else st.sent c }
  | .deviceRead d => sendToAll st d
  | .clientData _ bytes => (decode bytes).foldl handleSegment st

/-- A sequence of `serve_once` events, processed in order. -/
def run (st : ServerState) (evs : List Event) : ServerState :=
  evs.foldl step st

/-- The last `n` elements of a list (`l[-n:]` when `n ≤ len(l)`, all of
`l` otherwise). -/
def takeLast (n : Nat) (l : List Nat) : List Nat :=
  l.drop (l.length - n)

/-- The newline broadcast by one decoded segment, if it is a reset
command. -/
def segBroadcast (seg : Segment) : List Nat :=
  if seg = Segment.cmd [114] then [10] else []

/-- Everything passed to `send_to_all` by one event: device output, or
one newline per reset command in a client buffer. -/
def eventBroadcast : Event → List Nat
  | .accept _ => []
  | .deviceRead d => d
  | .clientData _ bytes => ((decode bytes).map segBroadcast).flatten

/-- Everything passed to `send_to_all` during a run, in processing
order. -/
def broadcasts (evs : List Event) : List Nat :=
  (evs.map eventBroadcast).flatten

/-! ### Script engine (`expect.py`)

Scripts are generator coroutines in the source.  The `expect(s, t)` script
(which delegates every step to `receive`) is modelled as an explicit state
machine `ExpectGen`; the `Expect` driver around it is `interact`.  The
driver's callbacks are modelled as logs: `outputs` records every
`on_output` call, `errors` every `on_error` call. -/

/-- expect.py `Command`: a step of a script. -/
structure Command where
  output : List Nat
  wants_input : Bool
  expires : Option Int
deriving DecidableEq, Repr

/-- Exceptions that the modelled code can raise. -/
inductive PyError where
  | typeError
  | timeoutError
  | fuelOut
deriving DecidableEq, Repr

/-- `Command.expired`: false without a deadline, otherwise whether the
current time is strictly past it. -/
def Command.expired (c : Command) (now : Int) : Bool :=
  match c.expires with
  | none => false
  | some e => decide (now > e)

/-- The `Expect.timeout` property: `self.step.expires - time.time()`,
clamped below at 0.  When the step has no deadline the subtraction is
`None - float`, which raises `TypeError`; when there is no step it
returns `None`. -/
def expectTimeout (step : Option Command) (now : Int) :
    Except PyError (Option Int) :=
  match step with
  | none => .ok none
  | some st =>
      match st.expires with
      | none => .error .typeError
      | some e =>
          let t := e - now
          if t > 0 then .ok (some t) else .ok (some 0)

/-- The state of the generator produced by `expect(s, timeout, expires)`:
not yet started (body not run), suspended at the `yield` inside
`receive` with the accumulated `gather`, or closed. -/
inductive ExpectGen where
  | unstarted (pat : List Nat) (timeout : Option Int) (expires : Option Int)
  | waiting (pat : List Nat) (expires : Option Int) (gather : List Nat)
  | closed
deriving DecidableEq, Repr

/-- The outcome of resuming a generator: it yields a step, returns
(`StopIteration`), or raises. -/
inductive GenOut where
  | yielded (c : Command)
  | stopped
  | raised (e : PyError)
deriving DecidableEq, Repr

/-- Python substring containment `pat in hay`: the pattern is a prefix of
some suffix of the haystack. -/
def containsSub (pat : List Nat) : List Nat → Bool
  | [] => pat.isEmpty
  | b :: t => pat.isPrefixOf (b :: t) || containsSub pat t

/-- Resuming the `expect` generator with `send(s)` (with `s = none` for a
plain `next`) at wall-clock `now`.  The body computes `expires` on first
resume; each later resume is the `yield` inside `receive` returning `s`:
`None` raises `TimeoutError`, otherwise the chunk is appended to `gather`
and the script returns when the pattern is a substring. -/
def genStep (g : ExpectGen) (s : Option (List Nat)) (now : Int) :
    GenOut × ExpectGen :=
  match g with
  | .unstarted pat t exp0 =>
      let exp :=
        match exp0, t with
        | none, some tv => some (now + tv)
        | e, _ => e
      (.yielded ⟨[], true, exp⟩, .waiting pat exp [])
  | .waiting pat exp gather =>
      match s with
      | none => (.raised .timeoutError, .closed)
      | some part =>
          let g2 := gather ++ part
          if containsSub pat g2 then (.stopped, .closed)
          else (.yielded ⟨[], true, exp⟩, .waiting pat exp g2)
  | .closed => (.stopped, .closed)

/-- The driver state: `Expect.runner`, `Expect.step`, and the two
callback logs. -/
structure ExpectSt where
  runner : Option ExpectGen
  step : Option Command
  outputs : List (List Nat)
  errors : List PyError
deriving Repr

/-- The `while True` loop of `Expect.interact`, with fuel.  Each
iteration either breaks (a wanting step with no input and an unexpired
deadline), or resumes the generator once: `StopIteration` and uncaught
exceptions clear the state (the latter after an `on_error` report); a
yielded step has its output reported and cleared, and a fresh wanting
step resets `s` to `none`. -/
def interactGo (fuel : Nat) (outs : List (List Nat)) (errs : List PyError)
    (g : ExpectGen) (c : Command) (s : Option (List Nat)) (now : Int) :
    ExpectSt :=
  match fuel with
  | 0 =>
      { runner := some g, step := some c, outputs := outs,
        errors := errs ++ [.fuelOut] }
  | fuel + 1 =>
      if c.wants_input ∧ s = none ∧ c.expired now = false then
        { runner := some g, step := some c, outputs := outs, errors := errs }
      else
        match genStep g s now with
        | (.stopped, _) =>
            { runner := none, step := none, outputs := outs, errors := errs }
        | (.raised e, _) =>
            { runner := none, step := none, outputs := outs,
              errors := errs ++ [e] }
        | (.yielded c2, g2) =>
            interactGo fuel (outs ++ [c2.output]) errs g2
              { c2 with output := [] }
              (if c2.wants_input then none else s) now

/-- `Expect.interact(s)` at wall-clock `now`.  If there is a runner but
no step, `start` advances to the first step (`StopIteration` leaves the
runner in place with no step; another exception is reported and clears
the state).  With no step it returns; otherwise a pending output is
reported and cleared and the loop runs.  The loop of the `expect`
generator resumes at most twice per call, so a fuel of 3 is never
exhausted (certified by `PyError.fuelOut` never being reported in the
theorems below). -/
def interact (st : ExpectSt) (s : Option (List Nat)) (now : Int) : ExpectSt :=
  let stA : ExpectSt :=
    match st.runner, st.step with
    | some g, none =>
        match genStep g none now with
        | (.yielded c, g2) => { st with runner := some g2, step := some c }
        | (.stopped, _) => { st with step := none }
        | (.raised e, _) =>
            { st with runner := none, step := none,
                      errors := st.errors ++ [e] }
    | _, _ => st
  match stA.runner, stA.step with
  | _, none => stA
  | none, some _ => stA
  | some g, some c =>
      if c.output ≠ [] then
        interactGo 3 (stA.outputs ++ [c.output]) stA.errors g
          { c with output := [] } s now
      else
        interactGo 3 stA.outputs stA.errors g c s now

/-- A freshly created `expect(pat, timeout, expires)` script wrapped in
its `Expect` driver: not started, nothing reported. -/
def expectScript (pat : List Nat) (t : Option Int) (exp : Option Int) :
    ExpectSt :=
  { runner := some (.unstarted pat t exp), step := none,
    outputs := [], errors := [] }

/-- A sequence of `interact` calls, each with its input and the time at
which it runs. -/
def runInteract (st : ExpectSt) (calls : List (Option (List Nat) × Int)) :
    ExpectSt :=
  calls.foldl (fun st c => interact st c.1 c.2) st

/-! ### Client (`client.py`)

Only the console-key path of `Z80Client.run_once` and the menu dispatch
`handle_menu_key` are modelled; characters are code points, and
`str.lower` is modelled on ASCII (every key the dispatch compares is
ASCII). -/

/-- client.py `TABLE_LOWER`, the 32 characters of
`r'2abcdefghijklmnopqrstuvwxyz[\]6-'` as code points. -/
def TABLE_LOWER : List Nat :=
  [50, 97, 98, 99, 100, 101, 102, 103, 104, 105, 106, 107, 108, 109, 110,
   111, 112, 113, 114, 115, 116, 117, 118, 119, 120, 121, 122, 91, 92, 93,
   54, 45]

/-- client.py `TABLE_UPPER`, `r'@ABCDEFGHIJKLMNOPQRSTUVWXYZ{|}^_'`. -/
def TABLE_UPPER : List Nat :=
  [64, 65, 66, 67, 68, 69, 70, 71, 72, 73, 74, 75, 76, 77, 78, 79, 80, 81,
   82, 83, 84, 85, 86, 87, 88, 89, 90, 123, 124, 125, 94, 95]

/-- `str.lower` on one ASCII character. -/
def asciiLower (c : Nat) : Nat :=
  if 65 ≤ c ∧ c ≤ 90 then c + 32 else c

/-- client.py `control`: the index of the character in `TABLE_LOWER`, or
failing that in `TABLE_UPPER` (as a code point; `none` models the
`ValueError`). -/
def control (c : Nat) : Option Nat :=
  match TABLE_LOWER.indexOf? c with
  | some i => some i
  | none => TABLE_UPPER.indexOf? c

/-- client.py `base_key`: control characters are mapped to their base
letter through `TABLE_LOWER`; anything else is lowercased. -/
def base_key (c : Nat) : Nat :=
  if c < TABLE_LOWER.length then TABLE_LOWER.getD c 0 else asciiLower c

/-- `Z80Client.menu_key`, which is `control('a')` = 0x01 (Ctrl-A). -/
def menuKeyDefault : Nat := (control 97).getD 0

/-- The action selected by `Z80Client.handle_menu_key` for one key. -/
inductive MenuAction where
  | runScm
  | clearScreen
  | closeClient
  | runCpm
  | runBasic
  | sendKey (c : Nat)
  | showHelp
  | ignored
deriving DecidableEq, Repr

/-- `Z80Client.handle_menu_key`: the key is first normalized with
`base_key`, then matched against each binding in order (each `pressed`
check is membership of the normalized key in the lowercased letter
list).  The doubled-menu-key branch sends `c` — which at that point is
the **normalized** key `base_key(original)`, not the original menu
key. -/
def handle_menu_key (menuKey : Nat) (ck : Nat) : MenuAction :=
  let c := base_key ck
  if c ∈ [114].map asciiLower then .runScm
  else if c ∈ [108].map asciiLower then .clearScreen
  else if c ∈ [120, 113].map asciiLower then .closeClient
  else if c ∈ [99].map asciiLower then .runCpm
  else if c ∈ [98].map asciiLower then .runBasic
  else if c ∈ [base_key menuKey].map asciiLower then .sendKey c
  else if c ∈ [104, 63].map asciiLower then .showHelp
  else .ignored

/-- The client-side observations the key-path claims are about. -/
structure ClientKeySt where
  in_menu : Bool
  sentBytes : List Nat
  closedClient : Bool
deriving DecidableEq, Repr

/-- Applying a selected menu action to the client state.  Running a
script (`r`, `c`, `b`) immediately sends the reset command frame (the
script bodies all begin with `send_command(RESET)` on their first
`interact`); the doubled-key branch sends the normalized key through
`Z80Client.send` (wire-encoded); console-only actions change none of the
tracked state. -/
def applyMenu (menuKey : Nat) (st : ClientKeySt) (ck : Nat) : ClientKeySt :=
  match handle_menu_key menuKey ck with
  | .runScm => { st with sentBytes := st.sentBytes ++ command 114 }
  | .runCpm => { st with sentBytes := st.sentBytes ++ command 114 }
  | .runBasic => { st with sentBytes := st.sentBytes ++ command 114 }
  | .sendKey c => { st with sentBytes := st.sentBytes ++ encode [c] }
  | .closeClient => { st with closedClient := true }
  | .clearScreen => st
  | .showHelp => st
  | .ignored => st

/-- The console branch of `Z80Client.run_once` for one key: a latched
menu dispatches and clears the latch; the menu key sets the latch;
anything else is sent to the server wire-encoded. -/
def clientKey (menuKey : Nat) (st : ClientKeySt) (ck : Nat) : ClientKeySt :=
  if st.in_menu then
    let st2 := applyMenu menuKey st ck
    { st2 with in_menu := false }
  else if ck = menuKey then { st with in_menu := true }
  else { st with sentBytes := st.sentBytes ++ encode [ck] }

/-! ### Codec lemmas -/

theorem utf8Decode_cons (b0 : Nat) (rest : List Nat) :
    utf8Decode (b0 :: rest) =
      (utf8Head b0 rest).1 :: utf8Decode (rest.drop (utf8Head b0 rest).2) := by
  show utf8DecodeAux (rest.length + 1) (b0 :: rest) = _
  show (utf8Head b0 rest).1 :: utf8DecodeAux rest.length _ = _
  rw [utf8DecodeAux_fuel rest.length (rest.drop (utf8Head b0 rest).2).length
    _ (by simp [List.length_drop]) le_rfl]
  rfl

theorem utf8Decode_encodeChar (c : Nat) (hc : isScalar c = true)
    (rest : List Nat) :
    utf8Decode (utf8EncodeChar c ++ rest) = c :: utf8Decode rest := by
  have hb : c < 0x110000 ∧ (c < 0xD800 ∨ 0xDFFF < c) := by
    simpa [isScalar] using hc
  by_cases h1 : c < 0x80
  · have e1 : utf8EncodeChar c = [c] := by
      unfold utf8EncodeChar; rw [if_pos h1]
    have e2 : utf8Head c rest = (c, 0) := by
      unfold utf8Head; rw [if_pos h1]
    rw [e1, List.cons_append, List.nil_append, utf8Decode_cons, e2]
    simp
  · by_cases h2 : c < 0x800
    · have e1 : utf8EncodeChar c = [0xC0 + c / 0x40, 0x80 + c % 0x40] := by
        unfold utf8EncodeChar; rw [if_neg h1, if_pos h2]
      have hcont : isCont (0x80 + c % 0x40) = true := by
        simp only [isCont, decide_eq_true_eq]; omega
      have n1 : ¬(0xC0 + c / 0x40 < 0x80) := by omega
      have p1 : 0xC2 ≤ 0xC0 + c / 0x40 ∧ 0xC0 + c / 0x40 < 0xE0 := by omega
      have e2 : utf8Head (0xC0 + c / 0x40) ((0x80 + c % 0x40) :: rest) =
          (c, 1) := by
        unfold utf8Head
        rw [if_neg n1, if_pos p1]
        dsimp only
        rw [if_pos hcont]
        simp only [Prod.mk.injEq, and_true]
        omega
      rw [e1]
      show utf8Decode ((0xC0 + c / 0x40) :: (0x80 + c % 0x40) :: rest) = _
      rw [utf8Decode_cons, e2]
      simp
    · by_cases h3 : c < 0x10000
      · have e1 : utf8EncodeChar c =
            [0xE0 + c / 0x1000, 0x80 + c / 0x40 % 0x40, 0x80 + c % 0x40] := by
          unfold utf8EncodeChar; rw [if_neg h1, if_neg h2, if_pos h3]
        have n1 : ¬(0xE0 + c / 0x1000 < 0x80) := by omega
        have n2 : ¬(0xC2 ≤ 0xE0 + c / 0x1000 ∧ 0xE0 + c / 0x1000 < 0xE0) := by
          omega
        have p1 : 0xE0 ≤ 0xE0 + c / 0x1000 ∧ 0xE0 + c / 0x1000 < 0xF0 := by
          omega
        have e2 : utf8Head (0xE0 + c / 0x1000)
            ((0x80 + c / 0x40 % 0x40) :: (0x80 + c % 0x40) :: rest) =
            (c, 2) := by
          unfold utf8Head
          rw [if_neg n1, if_neg n2, if_pos p1]
          dsimp only
          have pc : (isCont (0x80 + c / 0x40 % 0x40) = true) ∧
              (isCont (0x80 + c % 0x40) = true) ∧
              0x800 ≤ (0xE0 + c / 0x1000 - 0xE0) * 0x1000 +
                (0x80 + c / 0x40 % 0x40 - 0x80) * 0x40 +
                (0x80 + c % 0x40 - 0x80) ∧
              ((0xE0 + c / 0x1000 - 0xE0) * 0x1000 +
                (0x80 + c / 0x40 % 0x40 - 0x80) * 0x40 +
                (0x80 + c % 0x40 - 0x80) < 0xD800 ∨
               0xDFFF < (0xE0 + c / 0x1000 - 0xE0) * 0x1000 +
                (0x80 + c / 0x40 % 0x40 - 0x80) * 0x40 +
                (0x80 + c % 0x40 - 0x80)) := by
            refine ⟨?_, ?_, by omega, ?_⟩
            · simp only [isCont, decide_eq_true_eq]; omega
            · simp only [isCont, decide_eq_true_eq]; omega
            · rcases hb.2 with h | h
              · left; omega
              · right; omega
          rw [if_pos pc]
          simp only [Prod.mk.injEq, and_true]
          omega
        rw [e1]
        show utf8Decode ((0xE0 + c / 0x1000) ::
          (0x80 + c / 0x40 % 0x40) :: (0x80 + c % 0x40) :: rest) = _
        rw [utf8Decode_cons, e2]
        simp
      · have e1 : utf8EncodeChar c =
            [0xF0 + c / 0x40000, 0x80 + c / 0x1000 % 0x40,
             0x80 + c / 0x40 % 0x40, 0x80 + c % 0x40] := by
          unfold utf8EncodeChar; rw [if_neg h1, if_neg h2, if_neg h3]
        have n1 : ¬(0xF0 + c / 0x40000 < 0x80) := by omega
        have n2 : ¬(0xC2 ≤ 0xF0 + c / 0x40000 ∧ 0xF0 + c / 0x40000 < 0xE0) := by
          omega
        have n3 : ¬(0xE0 ≤ 0xF0 + c / 0x40000 ∧ 0xF0 + c / 0x40000 < 0xF0) := by
          omega
        have p1 : 0xF0 ≤ 0xF0 + c / 0x40000 ∧ 0xF0 + c / 0x40000 < 0xF5 := by
          omega
        have e2 : utf8Head (0xF0 + c / 0x40000)
            ((0x80 + c / 0x1000 % 0x40) :: (0x80 + c / 0x40 % 0x40) ::
              (0x80 + c % 0x40) :: rest) = (c, 3) := by
          unfold utf8Head
          rw [if_neg n1, if_neg n2, if_neg n3, if_pos p1]
          dsimp only
          have pc : (isCont (0x80 + c / 0x1000 % 0x40) = true) ∧
              (isCont (0x80 + c / 0x40 % 0x40) = true) ∧
              (isCont (0x80 + c % 0x40) = true) ∧
              0x10000 ≤ (0xF0 + c / 0x40000 - 0xF0) * 0x40000 +
                (0x80 + c / 0x1000 % 0x40 - 0x80) * 0x1000 +
                (0x80 + c / 0x40 % 0x40 - 0x80) * 0x40 +
                (0x80 + c % 0x40 - 0x80) ∧
              (0xF0 + c / 0x40000 - 0xF0) * 0x40000 +
                (0x80 + c / 0x1000 % 0x40 - 0x80) * 0x1000 +
                (0x80 + c / 0x40 % 0x40 - 0x80) * 0x40 +
                (0x80 + c % 0x40 - 0x80) < 0x110000 := by
            refine ⟨?_, ?_, ?_, by omega, by omega⟩
            · simp only [isCont, decide_eq_true_eq]; omega
            · simp only [isCont, decide_eq_true_eq]; omega
            · simp only [isCont, decide_eq_true_eq]; omega
          rw [if_pos pc]
          simp only [Prod.mk.injEq, and_true]
          omega
        rw [e1]
        show utf8Decode ((0xF0 + c / 0x40000) ::
          (0x80 + c / 0x1000 % 0x40) :: (0x80 + c / 0x40 % 0x40) ::
          (0x80 + c % 0x40) :: rest) = _
        rw [utf8Decode_cons, e2]
        simp

theorem utf8Decode_pyEncode (x : List Nat) (hx : validStr x) :
    utf8Decode (pyEncode x) = x := by
  induction x with
  | nil => rfl
  | cons c t ih =>
      have hc : isScalar c = true := hx c (by simp)
      have ht : validStr t := fun d hd => hx d (by simp [hd])
      have hstep : pyEncode (c :: t) = utf8EncodeChar c ++ pyEncode t := by
        simp [pyEncode, pyEncodeChar, hc]
      rw [hstep, utf8Decode_encodeChar c hc, ih ht]

theorem pyEncodeChar_lt (c : Nat) : ∀ b ∈ pyEncodeChar c, b < 255 := by
  intro b hb
  unfold pyEncodeChar at hb
  by_cases hc : isScalar c = true
  · rw [if_pos hc] at hb
    have hb2 : c < 0x110000 ∧ (c < 0xD800 ∨ 0xDFFF < c) := by
      simpa [isScalar] using hc
    unfold utf8EncodeChar at hb
    split_ifs at hb <;> simp only [List.mem_cons, List.mem_singleton,
      List.not_mem_nil, or_false] at hb <;> omega
  · rw [if_neg hc] at hb
    simp only [List.mem_singleton] at hb
    omega

theorem ff_not_mem_pyEncode (x : List Nat) : 255 ∉ pyEncode x := by
  intro h
  unfold pyEncode at h
  rw [List.mem_flatten] at h
  obtain ⟨l, hl, hm⟩ := h
  rw [List.mem_map] at hl
  obtain ⟨c, _, rfl⟩ := hl
  exact absurd (pyEncodeChar_lt c 255 hm) (by omega)

theorem escapeAll_eq_self (l : List Nat) (h : 255 ∉ l) : escapeAll l = l := by
  induction l with
  | nil => rfl
  | cons b t ih =>
      have hb : ¬b = 255 := fun e => h (by simp [e])
      have ht : 255 ∉ t := fun m => h (by simp [m])
      simp only [escapeAll, List.map_cons, List.flatten_cons, if_neg hb]
      simpa [escapeAll] using ih ht

theorem encode_eq_pyEncode (x : List Nat) : encode x = pyEncode x :=
  escapeAll_eq_self _ (ff_not_mem_pyEncode x)

theorem escSplitAux_no_ff (l : List Nat) (hl : 255 ∉ l) :
    ∀ acc, escSplitAux acc l = [acc.reverse ++ l] := by
  induction l with
  | nil => intro acc; simp [escSplitAux]
  | cons b t ih =>
      intro acc
      have hb : ¬b = 255 := fun e => hl (by simp [e])
      have ht : 255 ∉ t := fun m => hl (by simp [m])
      rw [escSplitAux.eq_def]
      dsimp only
      rw [if_neg hb, ih ht]
      simp

theorem decode_no_ff (d : List Nat) (hd : 255 ∉ d) :
    decode d = [Segment.data (utf8Decode d)] := by
  rw [decode, escSplitAux_no_ff d hd []]
  have hh : ¬d.head? = some 255 := by
    cases d with
    | nil => simp
    | cons b t =>
        simp only [List.head?_cons, Option.some.injEq]
        exact fun e => hd (by simp [e])
  simp [hh]

/-! ### Dangling trailing escape -/

theorem utf8Head_consume (b0 : Nat) (rest : List Nat) :
    (utf8Head b0 rest).2 = 0
    ∨ (∃ b1 t, rest = b1 :: t ∧ (utf8Head b0 rest).2 = 1 ∧ isCont b1 = true)
    ∨ (∃ b1 b2 t, rest = b1 :: b2 :: t ∧ (utf8Head b0 rest).2 = 2 ∧
        isCont b2 = true)
    ∨ (∃ b1 b2 b3 t, rest = b1 :: b2 :: b3 :: t ∧ (utf8Head b0 rest).2 = 3 ∧
        isCont b3 = true) := by
  rcases rest with _ | ⟨b1, _ | ⟨b2, _ | ⟨b3, t⟩⟩⟩ <;>
    (unfold utf8Head; dsimp only; split_ifs <;>
      first
        | (left; rfl)
        | (right; left; exact ⟨_, _, rfl, rfl, by simp_all⟩)
        | (right; right; left; exact ⟨_, _, _, rfl, rfl, by simp_all⟩)
        | (right; right; right; exact ⟨_, _, _, _, rfl, rfl, by simp_all⟩))

theorem getLast?_drop_ne_nil {α : Type} (l : List α) (n : Nat)
    (h : l.drop n ≠ []) : (l.drop n).getLast? = l.getLast? := by
  conv_rhs => rw [← List.take_append_drop n l]
  rw [List.getLast?_append_of_ne_nil _ h]

/-- Decoding a byte string that ends in 0xFF (never a valid lead or
continuation byte) always produces a decoded string ending in the
replacement character U+FFFD. -/
theorem utf8Decode_ends_fffd_aux :
    ∀ n : Nat, ∀ l : List Nat, l.length ≤ n → l.getLast? = some 255 →
      ∃ t, utf8Decode l = t ++ [0xFFFD] := by
  intro n
  induction n with
  | zero =>
      intro l hn hlast
      have : l = [] := List.eq_nil_of_length_eq_zero (by omega)
      subst this
      simp at hlast
  | succ n ih =>
      intro l hn hlast
      cases l with
      | nil => simp at hlast
      | cons b0 rest =>
          rw [utf8Decode_cons]
          by_cases hrest : rest.drop (utf8Head b0 rest).2 = []
          · rcases utf8Head_consume b0 rest with h0 | h1 | h2 | h3
            · rw [h0, List.drop_zero] at hrest
              subst hrest
              simp only [List.getLast?_singleton, Option.some.injEq] at hlast
              subst hlast
              exact ⟨[], rfl⟩
            · obtain ⟨b1, t, rfl, hk, hc⟩ := h1
              rw [hk, List.drop_one, List.tail_cons] at hrest
              subst hrest
              rw [List.getLast?_cons_cons, List.getLast?_singleton] at hlast
              simp only [Option.some.injEq] at hlast
              subst hlast
              simp [isCont] at hc
            · obtain ⟨b1, b2, t, rfl, hk, hc⟩ := h2
              rw [hk] at hrest
              have ht : t = [] := by
                cases t with
                | nil => rfl
                | cons a b => simp at hrest
              subst ht
              rw [List.getLast?_cons_cons, List.getLast?_cons_cons,
                List.getLast?_singleton] at hlast
              simp only [Option.some.injEq] at hlast
              subst hlast
              simp [isCont] at hc
            · obtain ⟨b1, b2, b3, t, rfl, hk, hc⟩ := h3
              rw [hk] at hrest
              have ht : t = [] := by
                cases t with
                | nil => rfl
                | cons a b => simp at hrest
              subst ht
              rw [List.getLast?_cons_cons, List.getLast?_cons_cons,
                List.getLast?_cons_cons, List.getLast?_singleton] at hlast
              simp only [Option.some.injEq] at hlast
              subst hlast
              simp [isCont] at hc
          · have hrne : rest ≠ [] := by
              intro e; rw [e, List.drop_nil] at hrest; exact hrest rfl
            have hlast1 : rest.getLast? = some 255 := by
              cases rest with
              | nil => exact absurd rfl hrne
              | cons r0 rt => rw [List.getLast?_cons_cons] at hlast; exact hlast
            have hlast2 : (rest.drop (utf8Head b0 rest).2).getLast? =
                some 255 := by
              rw [getLast?_drop_ne_nil _ _ hrest]; exact hlast1
            have hlen : (rest.drop (utf8Head b0 rest).2).length ≤ n := by
              simp only [List.length_cons] at hn
              have := List.length_drop (utf8Head b0 rest).2 rest
              omega
            obtain ⟨t, ht⟩ := ih _ hlen hlast2
            exact ⟨(utf8Head b0 rest).1 :: t, by rw [ht]; rfl⟩

theorem utf8Decode_ends_fffd (l : List Nat) (h : l.getLast? = some 255) :
    ∃ t, utf8Decode l = t ++ [0xFFFD] :=
  utf8Decode_ends_fffd_aux l.length l le_rfl h

theorem getLast?_map {α β : Type} (f : α → β) :
    ∀ l : List α, (l.map f).getLast? = l.getLast?.map f := by
  intro l
  induction l with
  | nil => rfl
  | cons a t ih =>
      cases t with
      | nil => rfl
      | cons b u =>
          rw [List.map_cons, List.map_cons, List.getLast?_cons_cons,
            List.getLast?_cons_cons, ← List.map_cons]
          exact ih

theorem mem_of_getLast?_eq {α : Type} {l : List α} {a : α}
    (h : l.getLast? = some a) : a ∈ l := by
  induction l with
  | nil => simp at h
  | cons b t ih =>
      cases t with
      | nil =>
          simp only [List.getLast?_singleton, Option.some.injEq] at h
          simp [h]
      | cons c u =>
          rw [List.getLast?_cons_cons] at h
          exact List.mem_cons_of_mem b (ih h)

theorem escSplitAux_ne_nil : ∀ (l : List Nat) (acc : List Nat),
    escSplitAux acc l ≠ [] := by
  intro l
  induction l with
  | nil => intro acc; simp [escSplitAux]
  | cons b rest ih =>
      intro acc
      rw [escSplitAux.eq_def]
      dsimp only
      by_cases hb : b = 255
      · rw [if_pos hb]
        cases rest with
        | nil => simp
        | cons b2 rest2 => simp
      · rw [if_neg hb]
        exact ih (b :: acc)

theorem escSplitAux_last_shape_aux :
    ∀ (n : Nat) (l acc : List Nat), l.length ≤ n → 255 ∉ acc →
      ∀ L, (escSplitAux acc l).getLast? = some L →
        255 ∉ L ∨ ∃ M, 255 ∉ M ∧ L = M ++ [255] := by
  intro n
  induction n with
  | zero =>
      intro l acc hn hacc L hL
      have : l = [] := List.eq_nil_of_length_eq_zero (by omega)
      subst this
      simp only [escSplitAux, List.getLast?_singleton,
        Option.some.injEq] at hL
      subst hL
      left
      simpa using fun h => hacc h
  | succ n ih =>
      intro l acc hn hacc L hL
      cases l with
      | nil =>
          simp only [escSplitAux, List.getLast?_singleton,
            Option.some.injEq] at hL
          subst hL
          left
          simpa using fun h => hacc h
      | cons b rest =>
          rw [escSplitAux.eq_def] at hL
          dsimp only at hL
          by_cases hb : b = 255
          · rw [if_pos hb] at hL
            cases rest with
            | nil =>
                simp only [List.getLast?_singleton, Option.some.injEq] at hL
                subst hL
                right
                exact ⟨acc.reverse, by simpa using fun h => hacc h, by simp⟩
            | cons b2 rest2 =>
                rw [List.getLast?_cons_cons] at hL
                have hne := escSplitAux_ne_nil rest2 []
                cases hS : escSplitAux [] rest2 with
                | nil => exact absurd hS hne
                | cons S0 Stail =>
                    rw [hS, List.getLast?_cons_cons] at hL
                    rw [← hS] at hL
                    simp only [List.length_cons] at hn
                    exact ih rest2 [] (by omega) (by simp) L hL
          · rw [if_neg hb] at hL
            simp only [List.length_cons] at hn
            refine ih rest (b :: acc) (by omega) ?_ L hL
            intro h
            rcases List.mem_cons.mp h with h | h
            · exact hb h.symm
            · exact hacc h

/-- Structure of the final (residual) chunk of the escape split: a 0xFF
byte can occur in it only as its very last byte, since any 0xFF with a
following byte is consumed as a two-byte match. -/
theorem escSplitAux_last_shape (l acc : List Nat) (hacc : 255 ∉ acc)
    (L : List Nat) (hL : (escSplitAux acc l).getLast? = some L) :
    255 ∉ L ∨ ∃ M, 255 ∉ M ∧ L = M ++ [255] :=
  escSplitAux_last_shape_aux l.length l acc le_rfl hacc L hL

/-- Claim C5 counterexample: for the buffer `a 0xFF` (a literal byte
followed by a dangling escape), `decode` neither withholds the trailing
0xFF for a later read nor emits it as a zero-length command; it folds it
into the non-command data segment as a U+FFFD replacement character. -/
theorem trailing_escape_cex :
    decode [97, 255] = [Segment.data [97, 0xFFFD]] ∧
      decode [97, 255] ≠ decode [97] ∧
      decode [97, 255] ≠ decode [97] ++ [Segment.cmd []] := by
  decide

/-- Claim C5 (amended): for every buffer whose escape split leaves a
residual chunk ending in a dangling 0xFF, `decode` never withholds the
byte: when the residue is exactly the single byte 0xFF it is emitted as a
command with zero-length payload, and otherwise it is folded into the
final non-command data segment as a trailing U+FFFD replacement
character.  Both directions of the case assignment are proved: a
lone-escape residue yields `cmd []`, and any other dangling residue
yields a data segment ending in U+FFFD. -/
theorem trailing_escape_amended (buf L : List Nat)
    (hL : (escSplitAux [] buf).getLast? = some L)
    (h255 : L.getLast? = some 255) :
    (L = [255] → (decode buf).getLast? = some (Segment.cmd [])) ∧
      (L ≠ [255] →
        ∃ t, (decode buf).getLast? =
          some (Segment.data (t ++ [0xFFFD]))) := by
  have hdec : (decode buf).getLast? =
      ((escSplitAux [] buf).getLast?).map fun chunk =>
        if chunk.head? = some 255 then Segment.cmd (chunk.drop 1)
        else Segment.data (utf8Decode chunk) := by
    rw [decode, getLast?_map]
  rcases escSplitAux_last_shape buf [] (by simp) L hL with hno | ⟨M, hM, rfl⟩
  · exact absurd (mem_of_getLast?_eq h255) hno
  · cases M with
    | nil =>
        refine ⟨fun _ => ?_, fun hne => absurd (by simp) hne⟩
        rw [hdec, hL]
        rfl
    | cons m0 mt =>
        constructor
        · intro hl
          rw [List.cons_append] at hl
          simp at hl
        · intro _
          have hm0 : ¬(m0 :: mt ++ [255]).head? = some 255 := by
            simp only [List.cons_append, List.head?_cons, Option.some.injEq]
            intro e
            exact hM (by simp [e])
          obtain ⟨t, ht⟩ := utf8Decode_ends_fffd (m0 :: mt ++ [255]) h255
          refine ⟨t, ?_⟩
          rw [hdec, hL, Option.map_some', if_neg hm0, ht]

theorem trailing_escape_amended_witness :
    ((escSplitAux [] [97, 255]).getLast? = some [97, 255] ∧
      ([97, 255] : List Nat).getLast? = some 255 ∧
      ∃ t, (decode [97, 255]).getLast? =
        some (Segment.data (t ++ [0xFFFD]))) ∧
    ((escSplitAux [] [255]).getLast? = some [255] ∧
      ([255] : List Nat).getLast? = some 255 ∧
      (decode [255]).getLast? = some (Segment.cmd [])) :=
  ⟨⟨by decide, by decide,
      (trailing_escape_amended [97, 255] [97, 255] (by decide)
        (by decide)).2 (by decide)⟩,
    ⟨by decide, by decide,
      (trailing_escape_amended [255] [255] (by decide)
        (by decide)).1 rfl⟩⟩

/-- Claim C1: for every string `x` (of Unicode scalar values),
`decode(encode(x))` yields exactly the single non-command segment
`[(False, x)]` — including when `x` contains the character U+00FF. -/
theorem codec_roundtrip (x : List Nat) (hx : validStr x) :
    decode (encode x) = [Segment.data x] := by
  have h255 : 255 ∉ encode x := by
    rw [encode_eq_pyEncode]; exact ff_not_mem_pyEncode x
  rw [decode_no_ff _ h255, encode_eq_pyEncode, utf8Decode_pyEncode x hx]

theorem codec_roundtrip_witness :
    validStr [255] ∧ decode (encode [255]) = [Segment.data [255]] :=
  ⟨by decide, codec_roundtrip [255] (by decide)⟩

/-- Claim C9: `encode` output never contains the escape byte 0xFF (UTF-8
bytes are all below 0xF5 and lone surrogates are replaced by `'?'`), so
the escape-doubling `replace` in `encode` is the identity on the encoded
text, and the only producer of a leading 0xFF frame is `command`. -/
theorem encode_never_escape (x : List Nat) (c : Nat) :
    255 ∉ encode x ∧ encode x = pyEncode x ∧ command c = [255, c] := by
  refine ⟨?_, encode_eq_pyEncode x, rfl⟩
  rw [encode_eq_pyEncode]
  exact ff_not_mem_pyEncode x

/-! ### Server lemmas -/

theorem handleSegment_data_nil (s : ServerState) :
    handleSegment s (Segment.data []) = s := by
  show { s with deviceWrites := s.deviceWrites ++ lfToCrlf [] } = s
  show { s with deviceWrites := s.deviceWrites ++ [] } = s
  rw [List.append_nil]

theorem handleSegment_cmd_ff (s : ServerState) :
    handleSegment s (Segment.cmd [255]) = s := by
  show handleCommand s [255] = s
  unfold handleCommand
  rw [if_neg (by decide)]

/-- Claim C2 counterexample: a client sending the two bytes `0xFF 0xFF`
does not produce a data segment carrying 0xFF, and the server (here with
two connected clients) writes nothing to the device, rather than a
single 0xFF byte. -/
theorem escape_passthrough_cex :
    (∀ seg ∈ decode [255, 255], seg ≠ Segment.data [255]) ∧
      (step (step (step initState (Event.accept 0)) (Event.accept 1))
          (Event.clientData 0 [255, 255])).deviceWrites = [] ∧
      ([] : List Nat) ≠ [255] := by
  refine ⟨by decide, ?_, by decide⟩
  decide

/-- Claim C2 (amended): the two bytes `0xFF 0xFF` decode to a command
segment with payload 0xFF (between two empty data segments), not to a
data segment; since 0xFF is not the reset command byte the server
ignores it entirely: nothing is written to the device, no reset is
pulsed, nothing is broadcast and the backbuffer is unchanged. -/
theorem escape_passthrough_amended (st : ServerState) (cid : Nat) :
    decode [255, 255] =
      [Segment.data [], Segment.cmd [255], Segment.data []] ∧
    step st (Event.clientData cid [255, 255]) = st := by
  refine ⟨by decide, ?_⟩
  have h1 : step st (Event.clientData cid [255, 255]) =
      handleSegment (handleSegment (handleSegment st (Segment.data []))
        (Segment.cmd [255])) (Segment.data []) := by
    show (decode [255, 255]).foldl handleSegment st = _
    rw [show decode [255, 255] =
      [Segment.data [], Segment.cmd [255], Segment.data []] from by decide]
    rfl
  rw [h1, handleSegment_data_nil, handleSegment_cmd_ff,
    handleSegment_data_nil]

/-- Claim C4: a `0xFF 'r'` command frame from a connected client causes
exactly one device reset, and every currently connected client `c`
(including the sender) is sent exactly the single byte `"\n"`. -/
theorem reset_command (st : ServerState) (cid c : Nat)
    (hc : c ∈ st.connections) :
    (step st (Event.clientData cid [255, 114])).resets = st.resets + 1 ∧
    (step st (Event.clientData cid [255, 114])).sent c =
      st.sent c ++ [10] := by
  have h1 : step st (Event.clientData cid [255, 114]) =
      handleSegment (handleSegment (handleSegment st (Segment.data []))
        (Segment.cmd [114])) (Segment.data []) := by
    show (decode [255, 114]).foldl handleSegment st = _
    rw [show decode [255, 114] =
      [Segment.data [], Segment.cmd [114], Segment.data []] from by decide]
    rfl
  rw [h1, handleSegment_data_nil, handleSegment_data_nil]
  have h2 : handleSegment st (Segment.cmd [114]) =
      sendToAll { st with resets := st.resets + 1 } [10] := by
    show handleCommand st [114] = _
    unfold handleCommand
    rw [if_pos rfl]
  rw [h2]
  constructor
  · rfl
  · show (if c ∈ st.connections then st.sent c ++ encode [10]
      else st.sent c) = st.sent c ++ [10]
    rw [if_pos hc]
    rw [show encode [10] = [10] from by decide]

theorem reset_command_witness :
    (0 ∈ (step (step initState (Event.accept 0))
        (Event.accept 1)).connections) ∧
    ((step (step (step initState (Event.accept 0)) (Event.accept 1))
        (Event.clientData 0 [255, 114])).resets =
      (step (step initState (Event.accept 0)) (Event.accept 1)).resets + 1 ∧
     (step (step (step initState (Event.accept 0)) (Event.accept 1))
        (Event.clientData 0 [255, 114])).sent 0 =
      (step (step initState (Event.accept 0)) (Event.accept 1)).sent 0 ++
        [10]) :=
  ⟨by decide,
    reset_command (step (step initState (Event.accept 0)) (Event.accept 1))
      0 0 (by decide)⟩

theorem handleSegment_sent_append (st : ServerState) (seg : Segment)
    (c : Nat) (hc : c ∈ st.connections) :
    c ∈ (handleSegment st seg).connections ∧
      ∃ add, (handleSegment st seg).sent c = st.sent c ++ add := by
  cases seg with
  | data txt => exact ⟨hc, [], by simp [handleSegment]⟩
  | cmd cb =>
      show c ∈ (handleCommand st cb).connections ∧
        ∃ add, (handleCommand st cb).sent c = st.sent c ++ add
      unfold handleCommand
      by_cases h : cb = [114]
      · rw [if_pos h]
        refine ⟨hc, encode [10], ?_⟩
        show (if c ∈ st.connections then st.sent c ++ encode [10]
          else st.sent c) = _
        rw [if_pos hc]
      · rw [if_neg h]
        exact ⟨hc, [], by simp⟩

theorem foldlSeg_sent_append :
    ∀ (segs : List Segment) (st : ServerState) (c : Nat),
      c ∈ st.connections →
      c ∈ (segs.foldl handleSegment st).connections ∧
        ∃ add, (segs.foldl handleSegment st).sent c = st.sent c ++ add := by
  intro segs
  induction segs with
  | nil => intro st c hc; exact ⟨hc, [], by simp⟩
  | cons seg rest ih =>
      intro st c hc
      obtain ⟨hc1, add1, h1⟩ := handleSegment_sent_append st seg c hc
      obtain ⟨hc2, add2, h2⟩ := ih (handleSegment st seg) c hc1
      exact ⟨hc2, add1 ++ add2, by
        show (rest.foldl handleSegment (handleSegment st seg)).sent c = _
        rw [h2, h1, List.append_assoc]⟩

theorem step_sent_append (st : ServerState) (e : Event) (c : Nat)
    (hc : c ∈ st.connections) :
    c ∈ (step st e).connections ∧
      ∃ add, (step st e).sent c = st.sent c ++ add := by
  cases e with
  | accept cid =>
      constructor
      · show c ∈ st.connections ++ [cid]
        exact List.mem_append_left _ hc
      · by_cases h : c = cid
        · refine ⟨encode st.backbuffer, ?_⟩
          show (if c = cid then st.sent c ++ encode st.backbuffer
            else st.sent c) = _
          rw [if_pos h]
        · refine ⟨[], ?_⟩
          show (if c = cid then st.sent c ++ encode st.backbuffer
            else st.sent c) = _
          rw [if_neg h, List.append_nil]
  | deviceRead d =>
      refine ⟨hc, encode d, ?_⟩
      show (if c ∈ st.connections then st.sent c ++ encode d
        else st.sent c) = _
      rw [if_pos hc]
  | clientData cid bytes => exact foldlSeg_sent_append (decode bytes) st c hc

theorem run_sent_append :
    ∀ (evs : List Event) (st : ServerState) (c : Nat),
      c ∈ st.connections →
      c ∈ (run st evs).connections ∧
        ∃ add, (run st evs).sent c = st.sent c ++ add := by
  intro evs
  induction evs with
  | nil => intro st c hc; exact ⟨hc, [], by simp [run]⟩
  | cons e rest ih =>
      intro st c hc
      obtain ⟨hc1, add1, h1⟩ := step_sent_append st e c hc
      obtain ⟨hc2, add2, h2⟩ := ih (step st e) c hc1
      refine ⟨hc2, add1 ++ add2, ?_⟩
      show (run (step st e) rest).sent c = _
      rw [h2, h1, List.append_assoc]

/-- Claim C3: in any interleaving `pre ++ [accept cid] ++ post` of server
events, a client that has been sent nothing before its accept receives
exactly the wire-encoding of the backbuffer as it stood at the accept as
its first bytes on the socket; everything the post-accept events deliver
to it comes after that replay. -/
theorem backbuffer_replay (s0 : ServerState) (pre post : List Event)
    (cid : Nat) (hfresh : (run s0 pre).sent cid = []) :
    ∃ rest, (run s0 (pre ++ Event.accept cid :: post)).sent cid =
      encode (run s0 pre).backbuffer ++ rest := by
  have hsplit : run s0 (pre ++ Event.accept cid :: post) =
      run (step (run s0 pre) (Event.accept cid)) post := by
    show List.foldl step s0 (pre ++ Event.accept cid :: post) = _
    rw [List.foldl_append]
    rfl
  have hacc : (step (run s0 pre) (Event.accept cid)).sent cid =
      encode (run s0 pre).backbuffer := by
    show (if cid = cid then (run s0 pre).sent cid ++
      encode (run s0 pre).backbuffer else (run s0 pre).sent cid) = _
    rw [if_pos rfl, hfresh, List.nil_append]
  have hmem : cid ∈ (step (run s0 pre) (Event.accept cid)).connections := by
    show cid ∈ (run s0 pre).connections ++ [cid]
    simp
  obtain ⟨add, hadd⟩ := (run_sent_append post _ cid hmem).2
  exact ⟨add, by rw [hsplit, hadd, hacc]⟩

theorem backbuffer_replay_witness :
    (run initState [Event.deviceRead [65, 66]]).sent 0 = [] ∧
    ∃ rest, (run initState ([Event.deviceRead [65, 66]] ++
        Event.accept 0 :: [Event.deviceRead [67]])).sent 0 =
      encode (run initState [Event.deviceRead [65, 66]]).backbuffer ++
        rest :=
  ⟨by decide,
    backbuffer_replay initState [Event.deviceRead [65, 66]]
      [Event.deviceRead [67]] 0 (by decide)⟩

theorem sendToAll_backbuffer (st : ServerState) (d : List Nat) :
    (sendToAll st d).backbuffer =
      takeLast backbufferMax (st.backbuffer ++ d) := by
  show (if (st.backbuffer ++ d).length > backbufferMax then
      (st.backbuffer ++ d).drop ((st.backbuffer ++ d).length - backbufferMax)
    else st.backbuffer ++ d) = _
  unfold takeLast
  by_cases h : (st.backbuffer ++ d).length > backbufferMax
  · rw [if_pos h]
  · rw [if_neg h,
      show (st.backbuffer ++ d).length - backbufferMax = 0 by omega,
      List.drop_zero]

theorem takeLast_append_takeLast (n : Nat) (l d : List Nat) :
    takeLast n (takeLast n l ++ d) = takeLast n (l ++ d) := by
  unfold takeLast
  by_cases h : n ≤ l.length
  · have hlen : (l.drop (l.length - n)).length = n := by
      rw [List.length_drop]; omega
    have hda : (l ++ d).drop (l.length - n) = l.drop (l.length - n) ++ d :=
      List.drop_append_of_le_length (by omega)
    rw [← hda, List.drop_drop]
    congr 1
    rw [List.length_drop, List.length_append]
    omega
  · rw [show l.length - n = 0 by omega, List.drop_zero]

theorem foldlSeg_backbuffer :
    ∀ (segs : List Segment) (st : ServerState) (L : List Nat),
      st.backbuffer = takeLast backbufferMax L →
      (segs.foldl handleSegment st).backbuffer =
        takeLast backbufferMax (L ++ (segs.map segBroadcast).flatten) := by
  intro segs
  induction segs with
  | nil => intro st L h; simpa using h
  | cons seg rest ih =>
      intro st L h
      have hstep : (handleSegment st seg).backbuffer =
          takeLast backbufferMax (L ++ segBroadcast seg) := by
        cases seg with
        | data txt =>
            show st.backbuffer = _
            rw [show segBroadcast (Segment.data txt) = [] from rfl,
              List.append_nil]
            exact h
        | cmd cb =>
            show (handleCommand st cb).backbuffer = _
            unfold handleCommand
            by_cases hr : cb = [114]
            · rw [if_pos hr]
              have : segBroadcast (Segment.cmd cb) = [10] := by
                unfold segBroadcast
                rw [if_pos (by rw [hr])]
              rw [this]
              show (sendToAll { st with resets := st.resets + 1 }
                [10]).backbuffer = _
              rw [sendToAll_backbuffer]
              show takeLast backbufferMax (st.backbuffer ++ [10]) = _
              rw [h, takeLast_append_takeLast]
            · rw [if_neg hr]
              have : segBroadcast (Segment.cmd cb) = [] := by
                unfold segBroadcast
                rw [if_neg (by simp [hr])]
              rw [this, List.append_nil]
              exact h
      have := ih (handleSegment st seg) (L ++ segBroadcast seg) hstep
      show (rest.foldl handleSegment (handleSegment st seg)).backbuffer = _
      rw [this, List.map_cons, List.flatten_cons, ← List.append_assoc]

theorem run_backbuffer_inv :
    ∀ (evs : List Event) (st : ServerState) (L : List Nat),
      st.backbuffer = takeLast backbufferMax L →
      (run st evs).backbuffer =
        takeLast backbufferMax (L ++ broadcasts evs) := by
  intro evs
  induction evs with
  | nil => intro st L h; simpa [run, broadcasts] using h
  | cons e rest ih =>
      intro st L h
      have hstep : (step st e).backbuffer =
          takeLast backbufferMax (L ++ eventBroadcast e) := by
        cases e with
        | accept cid =>
            show st.backbuffer = _
            rw [show eventBroadcast (Event.accept cid) = [] from rfl,
              List.append_nil]
            exact h
        | deviceRead d =>
            rw [show step st (Event.deviceRead d) = sendToAll st d from rfl,
              sendToAll_backbuffer, h, takeLast_append_takeLast]
            rfl
        | clientData cid bytes =>
            exact foldlSeg_backbuffer (decode bytes) st L h
      have := ih (step st e) (L ++ eventBroadcast e) hstep
      show (run (step st e) rest).backbuffer = _
      rw [this]
      rw [show broadcasts (e :: rest) =
        eventBroadcast e ++ broadcasts rest from by
          simp [broadcasts], ← List.append_assoc]

/-- Claim C10: after any run of server events from the initial state, the
backbuffer equals the `backbuffer_max`-bounded suffix of everything ever
passed to `send_to_all` — device output interleaved with the newline
broadcast by each reset command — and a client accepted at that point is
sent exactly the wire-encoding of that suffix, replaying reset newlines
as if they were device output. -/
theorem backbuffer_broadcast_suffix (evs : List Event) (cid : Nat) :
    (run initState evs).backbuffer =
      takeLast backbufferMax (broadcasts evs) ∧
    (step (run initState evs) (Event.accept cid)).sent cid =
      (run initState evs).sent cid ++
        encode (takeLast backbufferMax (broadcasts evs)) := by
  have h := run_backbuffer_inv evs initState [] rfl
  rw [List.nil_append] at h
  refine ⟨h, ?_⟩
  show (if cid = cid then (run initState evs).sent cid ++
    encode (run initState evs).backbuffer
    else (run initState evs).sent cid) = _
  rw [if_pos rfl, h]

/-! ### Script engine lemmas -/

/-- Claim C7 counterexample: on a current step whose `expires` is `none`
(a deadline-less step, as produced by `receive(timeout=None)`), the
`timeout` property evaluates `None - time.time()` and raises `TypeError`
instead of returning `None`. -/
theorem expect_timeout_cex :
    expectTimeout (some ⟨[], true, none⟩) 0 =
      Except.error PyError.typeError ∧
    expectTimeout (some ⟨[], true, none⟩) 0 ≠ Except.ok none :=
  ⟨rfl, fun h => Except.noConfusion h⟩

/-- Claim C7 (amended): `timeout()` returns `max(0, expires - now)` when
the current step has a deadline and `None` when there is no current
step; but on a step with no deadline it raises `TypeError` (`None`
minus a float) rather than returning `None`. -/
theorem expect_timeout_amended (stp : Option Command) (now : Int) :
    expectTimeout stp now =
      match stp with
      | none => Except.ok none
      | some c =>
          match c.expires with
          | none => Except.error PyError.typeError
          | some e => Except.ok (some (max (e - now) 0)) := by
  cases stp with
  | none => rfl
  | some c =>
      cases hce : c.expires with
      | none => simp [expectTimeout, hce]
      | some e =>
          simp only [expectTimeout, hce]
          by_cases h : e - now > 0
          · rw [if_pos h, max_eq_left (by omega)]
          · rw [if_neg h, max_eq_right (by omega)]

theorem isPrefixOf_append {p l b : List Nat} (h : p.isPrefixOf l = true) :
    p.isPrefixOf (l ++ b) = true := by
  rw [List.isPrefixOf_iff_prefix] at h ⊢
  exact h.trans (l.prefix_append b)

theorem containsSub_nil_pat : ∀ l : List Nat, containsSub [] l = true := by
  intro l
  cases l with
  | nil => rfl
  | cons b t => rfl

theorem containsSub_append_of (p a : List Nat)
    (h : containsSub p a = true) (b : List Nat) :
    containsSub p (a ++ b) = true := by
  induction a with
  | nil =>
      have hp : p = [] := by
        have h2 : p.isEmpty = true := h
        simpa using h2
      subst hp
      exact containsSub_nil_pat _
  | cons x t ih =>
      rw [List.cons_append]
      show (p.isPrefixOf (x :: (t ++ b)) || containsSub p (t ++ b)) = true
      have h2 : (p.isPrefixOf (x :: t) || containsSub p t) = true := h
      simp only [Bool.or_eq_true] at h2
      rcases h2 with hp | hcont
      · have := isPrefixOf_append (b := b) hp
        rw [List.cons_append] at this
        simp [this]
      · simp [ih hcont]

/-- After a script has failed or completed (`runner` and `step` cleared),
`interact` is a no-op. -/
theorem interact_inert (st : ExpectSt) (hr : st.runner = none)
    (hs : st.step = none) (s : Option (List Nat)) (n : Int) :
    interact st s n = st := by
  simp [interact, hr, hs]

/-- The first `interact` on a fresh `expect` script: the generator body
runs, fixes the deadline `now + t`, and suspends at `receive`'s yield. -/
theorem expect_start (pat : List Nat) (t now0 : Int) (ht : 0 ≤ t) :
    interact (expectScript pat (some t) none) none now0 =
      { runner := some (.waiting pat (some (now0 + t)) []),
        step := some ⟨[], true, some (now0 + t)⟩,
        outputs := [], errors := [] } := by
  have hexp : Command.expired ⟨[], true, some (now0 + t)⟩ now0 = false := by
    simp only [Command.expired]
    simp only [decide_eq_false_iff_not]
    omega
  simp [interact, expectScript, genStep, interactGo, hexp]

/-- Feeding a chunk that still does not complete the pattern: the chunk
is appended to the accumulator, an empty output is reported, and the
script waits again (the deadline has not passed at feed time). -/
theorem expect_feed (pat gather chunk : List Nat) (exp tm : Int)
    (outs : List (List Nat))
    (hnm : containsSub pat (gather ++ chunk) = false)
    (htm : tm ≤ exp) :
    interact
      { runner := some (.waiting pat (some exp) gather),
        step := some ⟨[], true, some exp⟩,
        outputs := outs, errors := [] } (some chunk) tm =
      { runner := some (.waiting pat (some exp) (gather ++ chunk)),
        step := some ⟨[], true, some exp⟩,
        outputs := outs ++ [[]], errors := [] } := by
  have hexp : Command.expired ⟨[], true, some exp⟩ tm = false := by
    simp only [Command.expired]
    simp only [decide_eq_false_iff_not]
    omega
  simp [interact, interactGo, genStep, hexp, hnm]

/-- The first `interact(None)` after the deadline: the loop skips the
break, sends `None` into the generator, `receive` returns `None`,
`expect` raises `TimeoutError`, and the driver reports it once through
`on_error` and clears its state. -/
theorem expect_fire (pat gather : List Nat) (exp nowF : Int)
    (outs : List (List Nat)) (hx : exp < nowF) :
    interact
      { runner := some (.waiting pat (some exp) gather),
        step := some ⟨[], true, some exp⟩,
        outputs := outs, errors := [] } none nowF =
      { runner := none, step := none, outputs := outs,
        errors := [PyError.timeoutError] } := by
  have hexp : Command.expired ⟨[], true, some exp⟩ nowF = true := by
    simp only [Command.expired]
    simp only [decide_eq_true_eq]
    omega
  simp [interact, interactGo, genStep, hexp]

/-- Running a sequence of pre-deadline feeds none of which completes the
pattern leaves the script waiting with all chunks accumulated. -/
theorem expect_feeds_run (pat : List Nat) (exp : Int) :
    ∀ (feeds : List (List Nat × Int)) (gather : List Nat)
      (outs : List (List Nat)),
      (∀ f ∈ feeds, f.2 ≤ exp) →
      containsSub pat (gather ++ (feeds.map Prod.fst).flatten) = false →
      runInteract
        { runner := some (.waiting pat (some exp) gather),
          step := some ⟨[], true, some exp⟩,
          outputs := outs, errors := [] }
        (feeds.map fun f => (some f.1, f.2)) =
      { runner := some (.waiting pat (some exp)
          (gather ++ (feeds.map Prod.fst).flatten)),
        step := some ⟨[], true, some exp⟩,
        outputs := outs ++ feeds.map (fun _ => []), errors := [] } := by
  intro feeds
  induction feeds with
  | nil =>
      intro gather outs hts hnm
      simp [runInteract]
  | cons f rest ih =>
      intro gather outs hts hnm
      have hnm1 : containsSub pat (gather ++ f.1) = false := by
        by_contra hcc
        rw [Bool.not_eq_false] at hcc
        have := containsSub_append_of pat (gather ++ f.1) hcc
          ((rest.map Prod.fst).flatten)
        rw [List.append_assoc] at this
        rw [show (f.1 ++ (rest.map Prod.fst).flatten) =
          ((f :: rest).map Prod.fst).flatten from by simp] at this
        rw [hnm] at this
        exact Bool.noConfusion this
      have hstep : runInteract
          { runner := some (.waiting pat (some exp) gather),
            step := some ⟨[], true, some exp⟩,
            outputs := outs, errors := [] }
          ((f :: rest).map fun f => (some f.1, f.2)) =
        runInteract
          { runner := some (.waiting pat (some exp) (gather ++ f.1)),
            step := some ⟨[], true, some exp⟩,
            outputs := outs ++ [[]], errors := [] }
          (rest.map fun f => (some f.1, f.2)) := by
        show runInteract (interact _ (some f.1) f.2) _ = _
        rw [expect_feed pat gather f.1 exp f.2 outs hnm1
          (hts f (by simp))]
      rw [hstep]
      have hnm2 : containsSub pat
          ((gather ++ f.1) ++ (rest.map Prod.fst).flatten) = false := by
        rw [List.append_assoc]
        rw [show (f.1 ++ (rest.map Prod.fst).flatten) =
          ((f :: rest).map Prod.fst).flatten from by simp]
        exact hnm
      rw [ih (gather ++ f.1) (outs ++ [[]])
        (fun g hg => hts g (by simp [hg])) hnm2]
      simp

/-- Claim C8: a run of `expect(p, t)` — started at `now0`, fed any
pre-deadline chunks whose concatenation never contains `p` — fails with
`TimeoutError` on the first `Interact(none)` after the deadline `now0 +
t` elapses: the error is reported exactly once via `on_error`, the
script is then inert (every further `interact` is a no-op), and no
exception reaches the `interact` caller (the driver state is total). -/
theorem expect_timeout_failure (pat : List Nat) (t now0 nowF : Int)
    (feeds : List (List Nat × Int)) (ht : 0 ≤ t)
    (htimes : ∀ f ∈ feeds, f.2 ≤ now0 + t)
    (hnomatch : containsSub pat ((feeds.map Prod.fst).flatten) = false)
    (hlate : now0 + t < nowF) :
    let stF := interact
      (runInteract (interact (expectScript pat (some t) none) none now0)
        (feeds.map fun f => (some f.1, f.2))) none nowF
    stF.errors = [PyError.timeoutError] ∧ stF.runner = none ∧
      stF.step = none ∧
      ∀ (s : Option (List Nat)) (n : Int), interact stF s n = stF := by
  intro stF
  have h1 := expect_start pat t now0 ht
  have h2 := expect_feeds_run pat (now0 + t) feeds [] []
    htimes (by simpa using hnomatch)
  rw [List.nil_append] at h2
  have hF : stF =
      { runner := none, step := none,
        outputs := [] ++ feeds.map (fun _ => []),
        errors := [PyError.timeoutError] } := by
    show interact _ none nowF = _
    rw [h1, h2, expect_fire pat ((feeds.map Prod.fst).flatten)
      (now0 + t) nowF ([] ++ feeds.map (fun _ => [])) hlate]
  refine ⟨by rw [hF], by rw [hF], by rw [hF], ?_⟩
  intro s n
  exact interact_inert stF (by rw [hF]) (by rw [hF]) s n

theorem expect_timeout_failure_witness :
    (0 : Int) ≤ 10 ∧ (∀ f ∈ [([66], (3 : Int))], f.2 ≤ 0 + 10) ∧
    containsSub [65] (([([66], (3 : Int))].map Prod.fst).flatten) = false ∧
    ((0 : Int) + 10 < 11) ∧
    ((interact
        (runInteract (interact (expectScript [65] (some 10) none) none 0)
          ([([66], (3 : Int))].map fun f => (some f.1, f.2)))
        none 11).errors = [PyError.timeoutError] ∧
      (interact
        (runInteract (interact (expectScript [65] (some 10) none) none 0)
          ([([66], (3 : Int))].map fun f => (some f.1, f.2)))
        none 11).runner = none ∧
      (interact
        (runInteract (interact (expectScript [65] (some 10) none) none 0)
          ([([66], (3 : Int))].map fun f => (some f.1, f.2)))
        none 11).step = none ∧
      ∀ (s : Option (List Nat)) (n : Int),
        interact (interact
          (runInteract (interact (expectScript [65] (some 10) none) none 0)
            ([([66], (3 : Int))].map fun f => (some f.1, f.2)))
          none 11) s n =
        interact
          (runInteract (interact (expectScript [65] (some 10) none) none 0)
            ([([66], (3 : Int))].map fun f => (some f.1, f.2)))
          none 11) :=
  ⟨by decide, by decide, by decide, by decide,
    expect_timeout_failure [65] 10 0 11 [([66], 3)] (by decide)
      (by decide) (by decide) (by decide)⟩

/-! ### Client menu key -/

/-- Claim C6: with the default menu key Ctrl-A (0x01) and the latch
clear, typing Ctrl-A twice sets the latch on the first key and
dispatches the doubled-key branch on the second, sending exactly one
byte and clearing the latch — but the byte sent is 0x61 (`'a'`), the
`base_key`-normalized form of the menu key, not the literal 0x01 that
the code's own comment (`repeated prefix sends prefix`) promises:
`handle_menu_key` rebinds `c = base_key(c)` before `self.send(c)`. -/
theorem menu_double_key :
    menuKeyDefault = 1 ∧
    (clientKey 1 ⟨false, [], false⟩ 1).in_menu = true ∧
    (clientKey 1 ⟨false, [], false⟩ 1).sentBytes = [] ∧
    handle_menu_key 1 1 = MenuAction.sendKey 97 ∧
    (clientKey 1 (clientKey 1 ⟨false, [], false⟩ 1) 1).sentBytes = [97] ∧
    (clientKey 1 (clientKey 1 ⟨false, [], false⟩ 1) 1).in_menu = false ∧
    ([97] : List Nat) ≠ [1] := by
  decide

end Zagreus
